import Mathlib

/-!
# Verification of the SpeechPathology-Search retrieval core

Shallow embedding of the retrieval/ranking engine in `server/src/index.ts`:
tokenizer, stemmer, letter-tag deriver, corpus builder, scorer, ranker,
note-generator post-processing, and the tag-persistence logic of the upload
and edit handlers.  Strings are modelled as Lean `String` (lists of
characters); JavaScript's `toLowerCase`, regexes, `Set`, stable `sort` and
`includes` are modelled on the ASCII range they are exercised on.
-/

set_option autoImplicit false

namespace SpeechSearch

/-- ASCII lowercasing of one character (models `String.prototype.toLowerCase`
on the ASCII range; 65–90 are `A`–`Z`, +32 maps into `a`–`z`). -/
def lowerChar (c : Char) : Char :=
  if 65 ≤ c.toNat ∧ c.toNat ≤ 90 then Char.ofNat (c.toNat + 32) else c

/-- Lowercase every character of a character list. -/
def lowerData (l : List Char) : List Char := l.map lowerChar

/-- Lowercase a string. -/
def lowerStr (s : String) : String := String.mk (lowerData s.data)

/-- Characters in `[a-z0-9]` (97–122 are `a`–`z`, 48–57 are `0`–`9`):
the characters the tokenizer's split regex `/[^a-z0-9]+/` does *not* treat
as separators. -/
def isWordChar (c : Char) : Bool :=
  (97 ≤ c.toNat && c.toNat ≤ 122) || (48 ≤ c.toNat && c.toNat ≤ 57)

/-- Worker for `tokenize`: scan the character list, accumulating the current
token in reverse in `acc`; a separator (non-word character) flushes the
accumulated token, and empty pieces are dropped — exactly the effect of
`split(/[^a-z0-9]+/).filter(Boolean)`. -/
def tokAux : List Char → List Char → List String
  | [], acc => if acc = [] then [] else [String.mk acc.reverse]
  | c :: cs, acc =>
    if isWordChar c then tokAux cs (c :: acc)
    else if acc = [] then tokAux cs [] else String.mk acc.reverse :: tokAux cs []

/-- `tokenize` from `index.ts`:
`input.toLowerCase().split(/[^a-z0-9]+/).filter(Boolean)`. -/
def tokenize (input : String) : List String :=
  tokAux (lowerData input.data) []

/-- `t.drop (t.length - suf.length) == suf`: whether `suf` is a suffix of `t`
(models `String.prototype.endsWith`). -/
def endsWithL (t suf : List Char) : Bool :=
  t.drop (t.length - suf.length) == suf

/-- `stem` from `index.ts`, on the character list: length ≤ 3 unchanged;
`ies`→`y`; strip `es`; strip `s`; otherwise unchanged (first match wins). -/
def stemChars (t : List Char) : List Char :=
  if t.length ≤ 3 then t
  else if endsWithL t ['i', 'e', 's'] then t.take (t.length - 3) ++ ['y']
  else if endsWithL t ['e', 's'] then t.take (t.length - 2)
  else if endsWithL t ['s'] then t.take (t.length - 1)
  else t

/-- `stem` from `index.ts`. -/
def stem (token : String) : String := String.mk (stemChars token.data)

/-- ASCII alphabetic characters, the matches of `/[a-z]/gi`. -/
def isAsciiAlpha (c : Char) : Bool :=
  (97 ≤ c.toNat && c.toNat ≤ 122) || (65 ≤ c.toNat && c.toNat ≤ 90)

/-- First-occurrence de-duplication with an explicit `seen` accumulator:
the semantics of iterating a JavaScript `Set` built from an array. -/
def dedupAux {α : Type} [DecidableEq α] : List α → List α → List α
  | [], _ => []
  | x :: xs, seen => if x ∈ seen then dedupAux xs seen else x :: dedupAux xs (x :: seen)

/-- `Array.from(new Set(l))`: keep the first occurrence of each element. -/
def dedupFirst {α : Type} [DecidableEq α] (l : List α) : List α := dedupAux l []

/-- The three surface forms emitted per letter: bare, slash-wrapped, prefixed. -/
def letterVariants (l : Char) : List String :=
  [String.mk [l], "/" ++ String.mk [l] ++ "/", "letter-" ++ String.mk [l]]

/-- The distinct (lowercased, first-occurrence order) alphabetic characters of
a title: `Array.from(new Set(text.match(/[a-z]/gi).map(l => l.toLowerCase())))`. -/
def uniqueLetters (text : String) : List Char :=
  dedupFirst (lowerData (text.data.filter isAsciiAlpha))

/-- `deriveLetterTags` from `index.ts`. -/
def deriveLetterTags (text : String) : List String :=
  (uniqueLetters text).flatMap letterVariants

/-- A resource, restricted to the fields the retrieval core reads. -/
structure Resource where
  title : String
  description : String
  tags : List String
  extractedText : Option String
  type : Option String
deriving DecidableEq

/-- `Array.prototype.join(sep)`. -/
def joinWith (sep : String) : List String → String
  | [] => ""
  | [s] => s
  | s :: rest => s ++ sep ++ joinWith sep rest

/-- The scoring corpus, exactly the template literal in `scoreResources`:
title, description, stored tags, derived letter tags, extracted text (empty
when absent), separated by single spaces. -/
def corpus (r : Resource) : String :=
  r.title ++ " " ++ r.description ++ " " ++ joinWith " " r.tags ++ " " ++
    joinWith " " (deriveLetterTags r.title) ++ " " ++ r.extractedText.getD ""

/-- Is `pat` a leading segment of `l`? -/
def isLeadOf : List Char → List Char → Bool
  | [], _ => true
  | _ :: _, [] => false
  | p :: ps, c :: cs => p == c && isLeadOf ps cs

/-- Does `pat` occur as a contiguous segment of `hay`?  Models
`String.prototype.includes`. -/
def containsChars (hay pat : List Char) : Bool :=
  match hay with
  | [] => pat.isEmpty
  | _ :: cs => isLeadOf pat hay || containsChars cs pat

/-- `s.includes pat` for strings. -/
def strContains (s pat : String) : Bool := containsChars s.data pat.data

/-- The per-resource score computed inside `scoreResources`'s `map`:
`overlap + stemOverlap + substrBonus + includesFull` with the source's three
`reduce` folds and the full-phrase check.  (`tokenize query` is recomputed
here rather than hoisted out of the map as in the source; `tokenize` is
pure, so the value is identical.) -/
def scoreResource (query : String) (r : Resource) : Nat :=
  let qTokens := tokenize query
  let rTokens := tokenize (corpus r)
  let rStems := rTokens.map stem
  let overlap := qTokens.foldl (fun acc tok => if tok ∈ rTokens then acc + 2 else acc) 0
  let stemOverlap := qTokens.foldl (fun acc tok => if stem tok ∈ rStems then acc + 1 else acc) 0
  let substrBonus := qTokens.foldl
    (fun acc tok => if r.tags.any (fun t => strContains (lowerStr t) tok) then acc + 1 else acc) 0
  let includesFull := if strContains (lowerStr (corpus r)) (lowerStr query) then 1 else 0
  overlap + stemOverlap + substrBonus + includesFull

/-- Insert into a list already sorted by score descending, placing the new
element before the first strictly–lower-or-equal score.  Since `sortDesc`
inserts from the left of the input, this realizes the *stable* descending
sort that `Array.prototype.sort((a, b) => b.score - a.score)` performs. -/
def insertDesc (x : Resource × Nat) : List (Resource × Nat) → List (Resource × Nat)
  | [] => [x]
  | y :: ys => if y.2 ≤ x.2 then x :: y :: ys else y :: insertDesc x ys

/-- Stable sort by score descending. -/
def sortDesc : List (Resource × Nat) → List (Resource × Nat)
  | [] => []
  | x :: xs => insertDesc x (sortDesc xs)

/-- `scoreResources` from `index.ts`: empty-token short-circuit, score each
resource, keep strictly positive scores, stable-sort descending, return the
resources of the first five. -/
def scoreResources (query : String) (list : List Resource) : List Resource :=
  let qTokens := tokenize query
  if qTokens.length = 0 then []
  else
    let scored := list.map (fun r => (r, scoreResource query r))
    let positive := scored.filter (fun p => decide (0 < p.2))
    ((sortDesc positive).map (fun p => p.1)).take 5

/-! ## Note generator (`buildResourceNotes`) -/

/-- The ASCII whitespace characters matched by the regexes' `\s` and removed
by `String.prototype.trim` (11 and 12 are vertical tab and form feed). -/
def isJsWs (c : Char) : Bool :=
  c == ' ' || c == '\t' || c == '\n' || c == '\r' || c.toNat == 11 || c.toNat == 12

/-- Digits `[0-9]`, the matches of `\d`. -/
def isDigitCh (c : Char) : Bool :=
  48 ≤ c.toNat && c.toNat ≤ 57

/-- `String.prototype.trim` (ASCII whitespace). -/
def trimChars (l : List Char) : List Char :=
  ((l.dropWhile isJsWs).reverse.dropWhile isJsWs).reverse

/-- `l.replace(/^\s*\d+\)\s*/, "")`: when the line starts (after optional
whitespace) with one or more digits followed by `)`, remove that prefix and
the whitespace after it; otherwise leave the line unchanged. -/
def stripNumbering (l : List Char) : List Char :=
  let afterWs := l.dropWhile isJsWs
  match afterWs.takeWhile isDigitCh, afterWs.dropWhile isDigitCh with
  | _ :: _, ')' :: rest => rest.dropWhile isJsWs
  | _, _ => l

/-- `String.prototype.split(sep)` for a one-character separator: split at
every occurrence, keeping empty pieces (`"".split` gives `[""]`). -/
def splitOnChar (sep : Char) : List Char → List (List Char)
  | [] => [[]]
  | c :: cs =>
    if c = sep then [] :: splitOnChar sep cs
    else
      match splitOnChar sep cs with
      | [] => [[c]]
      | h :: t => (c :: h) :: t

/-- The cleaning applied to the generator reply in `buildResourceNotes`:
split on newlines, strip each line's leading numbering, trim, drop blanks. -/
def cleanNoteLines (text : String) : List String :=
  (((splitOnChar '\n' text.data).map (fun l => trimChars (stripNumbering l))).filter
    (fun l => !l.isEmpty)).map String.mk

/-- One numbered resource description of the prompt's `resourceBrief`. -/
def briefLine (idx : Nat) (r : Resource) : String :=
  toString (idx + 1) ++ ". Title: " ++ r.title ++ "\nDescription: " ++ r.description ++
    "\nType: " ++ r.type.getD "resource" ++ "\nTags: " ++
    (if joinWith ", " r.tags = "" then "none" else joinWith ", " r.tags)

/-- The `resourceBrief` string of `buildResourceNotes`. -/
def resourceBrief (resources : List Resource) : String :=
  joinWith "\n\n" (resources.enum.map (fun p => briefLine p.1 p.2))

/-- The user-role message sent to the external generator. -/
def notesUserPrompt (userMessage : String) (resources : List Resource) : String :=
  "User question: " ++ userMessage ++ "\n\nResources:\n" ++ resourceBrief resources ++
    "\n\nReturn notes as numbered lines like `1) note...` matching the resource order. No extra text."

/-- `buildResourceNotes` from `index.ts`, with the external text generator
abstracted as a function `gen` from the prompt to the reply text.  An empty
shortlist returns `[]` before `gen` is ever applied; otherwise position `i`
of the shortlist receives cleaned line `i`, or `""` past the end
(`lines[idx] || ""`; the cleaned lines are never themselves empty). -/
def buildResourceNotes (userMessage : String) (resources : List Resource)
    (gen : String → String) : List String :=
  if resources.length = 0 then []
  else
    let lines := cleanNoteLines (gen (notesUserPrompt userMessage resources))
    (List.range resources.length).map (fun idx => lines.getD idx "")

/-! ## Tag persistence in the upload and edit handlers -/

/-- The `tags` field of a request body: an array, a string, or anything
else (absent, null, a number, …). -/
inductive TagsField where
  | arr (l : List String)
  | str (s : String)
  | missing
deriving DecidableEq

/-- `derivedTags` in the `POST /api/upload` handler: the provided array when
non-empty, otherwise the title's tokens of length 1–10. -/
def uploadBaseTags (title : String) (tags : TagsField) : List String :=
  let providedTags := match tags with | .arr l => l | _ => []
  if 0 < providedTags.length then providedTags
  else (tokenize title).filter (fun tok => decide (0 < tok.length) && decide (tok.length ≤ 10))

/-- The stored `tags` of a freshly created resource:
`Array.from(new Set([...derivedTags, ...deriveLetterTags(title)]))`. -/
def uploadTags (title : String) (tags : TagsField) : List String :=
  dedupFirst (uploadBaseTags title tags ++ deriveLetterTags title)

/-- `toTags()` in the `PUT /api/resources/:id` handler: an array as-is, a
string split on commas/trimmed/blanks dropped, anything else `[]`. -/
def toTagsPut (tags : TagsField) : List String :=
  match tags with
  | .arr l => l
  | .str s => (((splitOnChar ',' s.data).map trimChars).filter (fun l => !l.isEmpty)).map String.mk
  | .missing => []

/-- `mergedTags` in the edit handler: the request's tags when non-empty,
otherwise the resource's existing tags. -/
def putMergedTags (existingTags : List String) (tags : TagsField) : List String :=
  if 0 < (toTagsPut tags).length then toTagsPut tags else existingTags

/-- The title the edit handler derives letter tags from:
`title || existing.title` — the request title only when present *and*
non-empty (a JavaScript truthiness test), else the previous title. -/
def putLetterTitle (existingTitle : String) (title : Option String) : String :=
  match title with
  | some t => if t = "" then existingTitle else t
  | none => existingTitle

/-- The title the edit handler stores: `title ?? existing.title` — the
request title whenever present (even empty), else the previous title. -/
def putStoredTitle (existingTitle : String) (title : Option String) : String :=
  title.getD existingTitle

/-- The stored `tags` after an edit:
`Array.from(new Set([...mergedTags, ...deriveLetterTags(title || existing.title)]))`. -/
def putTags (existingTitle : String) (existingTags : List String)
    (title : Option String) (tags : TagsField) : List String :=
  dedupFirst (putMergedTags existingTags tags ++
    deriveLetterTags (putLetterTitle existingTitle title))

/-! ## Specification-side definitions

These follow the wording of the specification/claims and are compared with
the source-derived definitions above. -/

/-- Split a character list at every character satisfying `p`, keeping empty
pieces. -/
def splitWhen (p : Char → Bool) : List Char → List (List Char)
  | [] => [[]]
  | c :: cs =>
    if p c then [] :: splitWhen p cs
    else
      match splitWhen p cs with
      | [] => [[c]]
      | h :: t => (c :: h) :: t

/-- Prepend `pre` onto the first chunk of a chunk list (proof helper used to
relate `tokAux`'s accumulator to `splitWhen`'s chunks). -/
def consPre (pre : List Char) : List (List Char) → List (List Char)
  | [] => [pre]
  | h :: t => (pre ++ h) :: t

/-- Tokenizer as claim C8 words it: lowercase the whole string, split on
characters outside `[a-z0-9]`, discard the empty pieces (splitting at every
separator character and discarding empties is the same as splitting on
maximal separator runs). -/
def tokenizeSpec (s : String) : List String :=
  (((splitWhen (fun c => !isWordChar c) (lowerData s.data))).filter
    (fun l => !l.isEmpty)).map String.mk

/-- Per-query-token contribution as claim C1 words it: 2 for an exact member
of the corpus token set, 1 for a stem member of the corpus stem set, 1 when
some stored tag contains the token case-insensitively. -/
def tokenScoreSpec (r : Resource) (cTokens : List String) (tok : String) : Nat :=
  (if tok ∈ cTokens then 2 else 0) +
    (if stem tok ∈ cTokens.map stem then 1 else 0) +
    (if r.tags.any (fun t => strContains (lowerStr t) tok) then 1 else 0)

/-- Scorer as claim C1 words it: the sum of the per-token contributions over
the query tokens (duplicates counted separately), plus a flat 1 when the
lowercased query occurs inside the lowercased corpus. -/
def scoreSpec (query : String) (r : Resource) : Nat :=
  ((tokenize query).map (tokenScoreSpec r (tokenize (corpus r)))).sum +
    (if strContains (lowerStr (corpus r)) (lowerStr query) then 1 else 0)

/-- Insertion into a list sorted by the strict lexicographic key
"score descending, then input position ascending". -/
def insertLex (x : Nat × Resource × Nat) :
    List (Nat × Resource × Nat) → List (Nat × Resource × Nat)
  | [] => [x]
  | y :: ys =>
    if y.2.2 < x.2.2 ∨ (x.2.2 = y.2.2 ∧ x.1 < y.1) then x :: y :: ys
    else y :: insertLex x ys

/-- Sort by score descending, ties by input position ascending. -/
def sortLex : List (Nat × Resource × Nat) → List (Nat × Resource × Nat)
  | [] => []
  | x :: xs => insertLex x (sortLex xs)

/-- Ranker as claim C2 words it: score every resource, discard scores ≤ 0,
order by score descending with input-list position as the tie-break, and
truncate to the first five. -/
def rankSpec (query : String) (list : List Resource) : List Resource :=
  if (tokenize query).length = 0 then []
  else
    let indexed := list.enum.map (fun p => (p.1, p.2, scoreResource query p.2))
    let positive := indexed.filter (fun q => decide (0 < q.2.2))
    ((sortLex positive).map (fun q => q.2.1)).take 5

/-! ## General helper lemmas -/

theorem strData_append (s u : String) : (s ++ u).data = s.data ++ u.data := by
  cases s; cases u; rfl

theorem foldl_step_eq_sum {α : Type} (g : α → Nat) (f : Nat → α → Nat)
    (hf : ∀ acc a, f acc a = acc + g a) :
    ∀ (l : List α) (n : Nat), l.foldl f n = n + (l.map g).sum := by
  intro l
  induction l with
  | nil => simp
  | cons x xs ih =>
    intro n
    simp only [List.foldl_cons, List.map_cons, List.sum_cons, hf, ih]
    omega

theorem sum_map_add {α : Type} (f g : α → Nat) (l : List α) :
    (l.map (fun a => f a + g a)).sum = (l.map f).sum + (l.map g).sum := by
  induction l with
  | nil => simp
  | cons x xs ih => simp [ih]; omega

theorem sum_map_le_mul_length {α : Type} (f : α → Nat) (k : Nat) (l : List α)
    (h : ∀ a ∈ l, f a ≤ k) : (l.map f).sum ≤ k * l.length := by
  induction l with
  | nil => simp
  | cons x xs ih =>
    have hx := h x (List.mem_cons_self x xs)
    have hxs := ih (fun a ha => h a (List.mem_cons_of_mem x ha))
    simp only [List.map_cons, List.sum_cons, List.length_cons]
    calc f x + (xs.map f).sum ≤ k + k * xs.length := by omega
    _ = k * (xs.length + 1) := by ring

/-! ## Scorer: the implementation's folds equal the per-token sum -/

theorem scoreResource_eq_spec (q : String) (r : Resource) :
    scoreResource q r = scoreSpec q r := by
  unfold scoreResource scoreSpec tokenScoreSpec
  dsimp only
  rw [foldl_step_eq_sum (fun tok => if tok ∈ tokenize (corpus r) then 2 else 0)
        _ (by intro acc a; dsimp only; by_cases h : a ∈ tokenize (corpus r) <;> simp [h]),
      foldl_step_eq_sum (fun tok => if stem tok ∈ (tokenize (corpus r)).map stem then 1 else 0)
        _ (by
          intro acc a; dsimp only
          by_cases h : stem a ∈ (tokenize (corpus r)).map stem <;> simp [h]),
      foldl_step_eq_sum (fun tok =>
          if r.tags.any (fun t => strContains (lowerStr t) tok) then 1 else 0)
        _ (by
          intro acc a; dsimp only
          by_cases h : r.tags.any (fun t => strContains (lowerStr t) a) = true <;> simp [h])]
  rw [sum_map_add (fun a => (if a ∈ tokenize (corpus r) then 2 else 0) +
        (if stem a ∈ (tokenize (corpus r)).map stem then 1 else 0))
      (fun a => if r.tags.any (fun t => strContains (lowerStr t) a) then 1 else 0),
    sum_map_add (fun a => if a ∈ tokenize (corpus r) then 2 else 0)
      (fun a => if stem a ∈ (tokenize (corpus r)).map stem then 1 else 0)]
  omega

/-- C1: for every query whose tokenization is non-empty and every resource,
the per-resource score of `scoreResources` is exactly 2 per query token in
the corpus token set, plus 1 per query token whose stem is in the corpus
stem set, plus 1 per query token contained case-insensitively in at least
one stored tag (at most 1 per token), plus a flat 1 when the lowercased
query occurs inside the lowercased corpus, the corpus being the fixed-order
space-separated concatenation of title, description, stored tags, derived
letter tags and extracted text. -/
theorem C1_scorer_formula (q : String) (r : Resource) (_hq : tokenize q ≠ []) :
    scoreResource q r = scoreSpec q r :=
  scoreResource_eq_spec q r

theorem C1_scorer_formula_witness :
    tokenize "drill cards" ≠ [] ∧
      scoreResource "drill cards" (Resource.mk "Drill Cards /s/" "articulation drills"
          ["articulation"] none none) =
        scoreSpec "drill cards" (Resource.mk "Drill Cards /s/" "articulation drills"
          ["articulation"] none none) :=
  ⟨by decide, C1_scorer_formula "drill cards" _ (by decide)⟩

/-- C10: the score of a resource is at most `4 * n + 1` for `n` the number
of query tokens: at most 2 + 1 + 1 per token plus the flat phrase bonus. -/
theorem C10_score_bound (q : String) (r : Resource) :
    scoreResource q r ≤ 4 * (tokenize q).length + 1 := by
  rw [scoreResource_eq_spec]
  unfold scoreSpec
  have hsum : ((tokenize q).map (tokenScoreSpec r (tokenize (corpus r)))).sum ≤
      4 * (tokenize q).length := by
    have := sum_map_le_mul_length (tokenScoreSpec r (tokenize (corpus r))) 4 (tokenize q)
      (by
        intro a _
        unfold tokenScoreSpec
        split <;> split <;> split <;> omega)
    omega
  split <;> omega

/-- C4: the scorer and ranker are total functions of well-typed input (they
are plain Lean functions here); a query tokenizing to the empty sequence
yields the empty list, as does the empty resource list. -/
theorem C4_totality (q : String) (l : List Resource) :
    (tokenize q = [] → scoreResources q l = []) ∧ scoreResources q [] = [] := by
  constructor
  · intro h
    simp [scoreResources, h]
  · by_cases h : (tokenize q).length = 0 <;> simp [scoreResources, h, sortDesc]

theorem C4_totality_witness :
    tokenize "!!!" = [] ∧
      scoreResources "!!!" [Resource.mk "t" "d" [] none none] = [] ∧
      scoreResources "cat" [] = [] :=
  ⟨by decide, (C4_totality "!!!" [Resource.mk "t" "d" [] none none]).1 (by decide),
    (C4_totality "cat" []).2⟩

/-! ## Stemmer -/

/-- C6: the stemmer's rules apply in priority order with first match
winning — length ≤ 3 unchanged, then `ies`→`y`, then strip `es`, then strip
`s`, else unchanged — with the concrete examples of the specification. -/
theorem C6_stemmer (t : String) :
    (t.length ≤ 3 → stem t = t) ∧
    (3 < t.length → endsWithL t.data ['i', 'e', 's'] = true →
      stem t = String.mk (t.data.take (t.data.length - 3) ++ ['y'])) ∧
    (3 < t.length → endsWithL t.data ['i', 'e', 's'] = false →
      endsWithL t.data ['e', 's'] = true →
      stem t = String.mk (t.data.take (t.data.length - 2))) ∧
    (3 < t.length → endsWithL t.data ['i', 'e', 's'] = false →
      endsWithL t.data ['e', 's'] = false → endsWithL t.data ['s'] = true →
      stem t = String.mk (t.data.take (t.data.length - 1))) ∧
    (3 < t.length → endsWithL t.data ['i', 'e', 's'] = false →
      endsWithL t.data ['e', 's'] = false → endsWithL t.data ['s'] = false →
      stem t = t) ∧
    stem "puppies" = "puppy" ∧ stem "boxes" = "box" ∧
      stem "cats" = "cat" ∧ stem "is" = "is" := by
  have hlen : t.length = t.data.length := rfl
  refine ⟨?_, ?_, ?_, ?_, ?_, by decide, by decide, by decide, by decide⟩
  · intro h
    rw [hlen] at h
    show String.mk (stemChars t.data) = t
    rw [stemChars, if_pos h]
  · intro h h1
    rw [hlen] at h
    show String.mk (stemChars t.data) = _
    rw [stemChars, if_neg (by omega), if_pos h1]
  · intro h h1 h2
    rw [hlen] at h
    show String.mk (stemChars t.data) = _
    rw [stemChars, if_neg (by omega), if_neg (by simp [h1]), if_pos h2]
  · intro h h1 h2 h3
    rw [hlen] at h
    show String.mk (stemChars t.data) = _
    rw [stemChars, if_neg (by omega), if_neg (by simp [h1]), if_neg (by simp [h2]), if_pos h3]
  · intro h h1 h2 h3
    rw [hlen] at h
    show String.mk (stemChars t.data) = t
    rw [stemChars, if_neg (by omega), if_neg (by simp [h1]), if_neg (by simp [h2]),
      if_neg (by simp [h3])]

theorem C6_stemmer_witness :
    3 < "dishes".length ∧ endsWithL "dishes".data ['i', 'e', 's'] = false ∧
      endsWithL "dishes".data ['e', 's'] = true ∧ stem "dishes" = "dish" :=
  ⟨by decide, by decide, by decide,
    ((C6_stemmer "dishes").2.2.1 (by decide) (by decide) (by decide)).trans (by decide)⟩

/-! ## Tag deriver -/

theorem mem_dedupAux {α : Type} [DecidableEq α] (x : α) :
    ∀ (l seen : List α), x ∈ dedupAux l seen ↔ x ∈ l ∧ x ∉ seen := by
  intro l
  induction l with
  | nil => intro seen; simp [dedupAux]
  | cons y ys ih =>
    intro seen
    by_cases hy : y ∈ seen
    · rw [dedupAux, if_pos hy, ih]
      constructor
      · rintro ⟨hx, hs⟩
        exact ⟨List.mem_cons_of_mem y hx, hs⟩
      · rintro ⟨hx, hs⟩
        rcases List.mem_cons.mp hx with h | h
        · exact absurd (h ▸ hy) hs
        · exact ⟨h, hs⟩
    · rw [dedupAux, if_neg hy]
      constructor
      · intro hx
        rcases List.mem_cons.mp hx with h | h
        · exact ⟨h ▸ List.mem_cons_self y ys, h ▸ hy⟩
        · obtain ⟨h1, h2⟩ := (ih (y :: seen)).mp h
          refine ⟨List.mem_cons_of_mem y h1, fun hs => h2 (List.mem_cons_of_mem y hs)⟩
      · rintro ⟨hx, hs⟩
        rcases List.mem_cons.mp hx with h | h
        · exact h ▸ List.mem_cons_self x _
        · by_cases hxy : x = y
          · exact hxy ▸ List.mem_cons_self y _
          · exact List.mem_cons_of_mem y ((ih (y :: seen)).mpr
              ⟨h, by simp [List.mem_cons, hxy, hs]⟩)

theorem nodup_dedupAux {α : Type} [DecidableEq α] :
    ∀ (l seen : List α), (dedupAux l seen).Nodup := by
  intro l
  induction l with
  | nil => intro seen; simp [dedupAux]
  | cons y ys ih =>
    intro seen
    by_cases hy : y ∈ seen
    · rw [dedupAux, if_pos hy]; exact ih seen
    · rw [dedupAux, if_neg hy]
      refine List.Nodup.cons ?_ (ih (y :: seen))
      intro hmem
      exact ((mem_dedupAux y ys (y :: seen)).mp hmem).2 (List.mem_cons_self y seen)

theorem mem_dedupFirst {α : Type} [DecidableEq α] (x : α) (l : List α) :
    x ∈ dedupFirst l ↔ x ∈ l := by
  rw [dedupFirst, mem_dedupAux]
  simp

theorem nodup_dedupFirst {α : Type} [DecidableEq α] (l : List α) :
    (dedupFirst l).Nodup := nodup_dedupAux l []

theorem mem_uniqueLetters (title : String) (c : Char) :
    c ∈ uniqueLetters title ↔ ∃ d ∈ title.data, isAsciiAlpha d = true ∧ lowerChar d = c := by
  rw [uniqueLetters, mem_dedupFirst, lowerData]
  simp [List.mem_map, List.mem_filter]
  constructor
  · rintro ⟨d, ⟨hd, ha⟩, hl⟩
    exact ⟨d, hd, ha, hl⟩
  · rintro ⟨d, hd, ha, hl⟩
    exact ⟨d, ⟨hd, ha⟩, hl⟩

/-- C7: the tag deriver emits, per distinct alphabetic character of the
title (case-insensitive, first-occurrence order, de-duplicated), exactly the
three variants bare letter, `/x/` and `letter-x`; non-alphabetic characters
produce no tags; and `deriveLetterTags "Ss"` is exactly `{s, /s/, letter-s}`. -/
theorem C7_tag_deriver (title : String) :
    deriveLetterTags title = (uniqueLetters title).flatMap letterVariants ∧
    (uniqueLetters title).Nodup ∧
    (∀ c : Char, c ∈ uniqueLetters title ↔
      ∃ d ∈ title.data, isAsciiAlpha d = true ∧ lowerChar d = c) ∧
    (∀ tag : String, tag ∈ deriveLetterTags title ↔
      ∃ d ∈ title.data, isAsciiAlpha d = true ∧ tag ∈ letterVariants (lowerChar d)) ∧
    deriveLetterTags "Ss" = ["s", "/s/", "letter-s"] := by
  refine ⟨rfl, nodup_dedupFirst _, mem_uniqueLetters title, ?_, by decide⟩
  intro tag
  rw [deriveLetterTags]
  simp only [List.mem_flatMap, mem_uniqueLetters]
  constructor
  · rintro ⟨c, ⟨d, hd, ha, hl⟩, hv⟩
    exact ⟨d, hd, ha, hl ▸ hv⟩
  · rintro ⟨d, hd, ha, hv⟩
    exact ⟨lowerChar d, ⟨d, hd, ha, rfl⟩, hv⟩

/-! ## Tag persistence on create and edit -/

/-- C9 counterexample: creating a resource with title `"hello"` and an empty
supplied tag list stores the token `"hello"` (auto-derived from the title),
which is in neither the supplied tags nor the derived letter tags — so the
stored tag set is not the union of the supplied tags with the letter tags. -/
theorem C9_counterexample :
    "hello" ∈ uploadTags "hello" (TagsField.arr []) ∧
      "hello" ∉ ([] : List String) ++ deriveLetterTags "hello" :=
  ⟨by decide, by decide⟩

/-- C9 amended: on create the stored tag set is the de-duplicated union of
the *base* tags (the supplied tags when non-empty, otherwise the title's
tokens of length ≤ 10) with the letter tags of the title; on edit it is the
de-duplicated union of the supplied-or-retained tags with the letter tags of
the new title when that is non-empty (otherwise of the previous title);
hence after either write the stored tags contain every letter tag derived
from the resource's current title. -/
theorem C9_tag_invariant_amended :
    (∀ (title : String) (tf : TagsField),
      (∀ x : String, x ∈ uploadTags title tf ↔
        x ∈ uploadBaseTags title tf ∨ x ∈ deriveLetterTags title) ∧
      (uploadTags title tf).Nodup ∧
      (∀ x ∈ deriveLetterTags title, x ∈ uploadTags title tf)) ∧
    (∀ (existingTitle : String) (existingTags : List String)
        (title : Option String) (tf : TagsField),
      (∀ x : String, x ∈ putTags existingTitle existingTags title tf ↔
        x ∈ putMergedTags existingTags tf ∨
          x ∈ deriveLetterTags (putLetterTitle existingTitle title)) ∧
      (putTags existingTitle existingTags title tf).Nodup ∧
      (∀ x ∈ deriveLetterTags (putStoredTitle existingTitle title),
        x ∈ putTags existingTitle existingTags title tf)) := by
  constructor
  · intro title tf
    refine ⟨?_, nodup_dedupFirst _, ?_⟩
    · intro x
      rw [uploadTags, mem_dedupFirst, List.mem_append]
    · intro x hx
      rw [uploadTags, mem_dedupFirst, List.mem_append]
      exact Or.inr hx
  · intro existingTitle existingTags title tf
    refine ⟨?_, nodup_dedupFirst _, ?_⟩
    · intro x
      rw [putTags, mem_dedupFirst, List.mem_append]
    · intro x hx
      rw [putTags, mem_dedupFirst, List.mem_append]
      refine Or.inr ?_
      match title with
      | none => exact hx
      | some t =>
        by_cases ht : t = ""
        · rw [putStoredTitle, Option.getD_some, ht] at hx
          simp [show deriveLetterTags "" = [] from rfl] at hx
        · rw [putLetterTitle, if_neg ht]
          rw [putStoredTitle, Option.getD_some] at hx
          exact hx

theorem C9_tag_invariant_amended_witness :
    "b" ∈ deriveLetterTags "Bob" ∧
      "b" ∈ uploadTags "Bob" (TagsField.arr ["x"]) ∧
      "o" ∈ deriveLetterTags (putStoredTitle "Old" (some "Bob")) ∧
      "o" ∈ putTags "Old" ["x"] (some "Bob") TagsField.missing :=
  ⟨by decide, (C9_tag_invariant_amended.1 "Bob" (TagsField.arr ["x"])).2.2 "b" (by decide),
    by decide,
    (C9_tag_invariant_amended.2 "Old" ["x"] (some "Bob") TagsField.missing).2.2 "o" (by decide)⟩

/-! ## Tokenizer: the scan equals split-and-discard-empties -/

theorem splitWhen_ne_nil (p : Char → Bool) : ∀ l : List Char, splitWhen p l ≠ [] := by
  intro l
  induction l with
  | nil => simp [splitWhen]
  | cons c cs ih =>
    rw [splitWhen]
    by_cases hp : p c
    · simp [hp]
    · rcases h : splitWhen p cs with _ | ⟨hd, tl⟩
      · exact absurd h ih
      · simp [hp, h]

theorem tokAux_eq_chunks :
    ∀ (l acc : List Char),
      tokAux l acc =
        ((consPre acc.reverse (splitWhen (fun c => !isWordChar c) l)).filter
          (fun x => !x.isEmpty)).map String.mk := by
  intro l
  induction l with
  | nil =>
    intro acc
    rw [tokAux, splitWhen, consPre]
    by_cases h : acc = []
    · simp [h]
    · have hrev : acc.reverse.isEmpty = false :=
        List.isEmpty_eq_false.mpr (by simpa using h)
      rw [if_neg h]
      simp [List.filter, hrev]
  | cons c cs ih =>
    intro acc
    by_cases hw : isWordChar c
    · have hp : ¬ ((!isWordChar c) = true) := by simp [hw]
      rw [tokAux, if_pos hw, splitWhen, if_neg hp, ih]
      rcases h : splitWhen (fun c => !isWordChar c) cs with _ | ⟨hd, tl⟩
      · exact absurd h (splitWhen_ne_nil _ cs)
      · simp only [consPre, List.reverse_cons, List.append_assoc, List.singleton_append]
    · have hp : (!isWordChar c) = true := by simp [hw]
      have hcs : consPre [] (splitWhen (fun c => !isWordChar c) cs) =
          splitWhen (fun c => !isWordChar c) cs := by
        rcases h : splitWhen (fun c => !isWordChar c) cs with _ | ⟨hd, tl⟩
        · exact absurd h (splitWhen_ne_nil _ cs)
        · rw [consPre, List.nil_append]
      rw [tokAux, if_neg hw, splitWhen, if_pos hp]
      by_cases h : acc = []
      · rw [if_pos h, ih, h]
        simp only [List.reverse_nil, hcs, consPre]
        rcases hsp : splitWhen (fun c => !isWordChar c) cs with _ | ⟨hd, tl⟩
        · exact absurd hsp (splitWhen_ne_nil _ cs)
        · simp [List.filter]
      · rw [if_neg h, ih]
        have hrev : acc.reverse.isEmpty = false :=
          List.isEmpty_eq_false.mpr (by simpa using h)
        simp only [List.reverse_nil, consPre]
        rcases hsp : splitWhen (fun c => !isWordChar c) cs with _ | ⟨hd, tl⟩
        · exact absurd hsp (splitWhen_ne_nil _ cs)
        · simp [List.filter, hrev]

theorem tokenize_eq_tokenizeSpec (s : String) : tokenize s = tokenizeSpec s := by
  rw [tokenize, tokenizeSpec, tokAux_eq_chunks]
  rcases h : splitWhen (fun c => !isWordChar c) (lowerData s.data) with _ | ⟨hd, tl⟩
  · exact absurd h (splitWhen_ne_nil _ _)
  · simp [consPre]

theorem mem_splitWhen_flat (p : Char → Bool) :
    ∀ (l : List Char) (x : List Char), x ∈ splitWhen p l → ∀ c ∈ x, p c = false := by
  intro l
  induction l with
  | nil =>
    intro x hx c hc
    rw [splitWhen] at hx
    simp at hx
    subst hx
    simp at hc
  | cons d ds ih =>
    intro x hx c hc
    rw [splitWhen] at hx
    by_cases hp : p d
    · rw [if_pos hp] at hx
      rcases List.mem_cons.mp hx with h | h
      · subst h; simp at hc
      · exact ih x h c hc
    · rw [if_neg hp] at hx
      rcases hsp : splitWhen p ds with _ | ⟨hd, tl⟩
      · exact absurd hsp (splitWhen_ne_nil p ds)
      · rw [hsp] at hx
        rcases List.mem_cons.mp hx with h | h
        · subst h
          rcases List.mem_cons.mp hc with h' | h'
          · subst h'; simpa using hp
          · exact ih hd (hsp ▸ List.mem_cons_self hd tl) c h'
        · exact ih x (hsp ▸ List.mem_cons_of_mem hd h) c hc

theorem tokenize_token_facts (s t : String) (h : t ∈ tokenize s) :
    t.data ≠ [] ∧ ∀ c ∈ t.data, isWordChar c = true := by
  rw [tokenize_eq_tokenizeSpec, tokenizeSpec] at h
  obtain ⟨x, hx, hmk⟩ := List.mem_map.mp h
  obtain ⟨hsp, hne⟩ := List.mem_filter.mp hx
  subst hmk
  refine ⟨by simpa using hne, ?_⟩
  intro c hc
  have := mem_splitWhen_flat _ _ x hsp c hc
  simpa using this

theorem tokAux_all_sep :
    ∀ l : List Char, (∀ c ∈ l, isWordChar c = false) → tokAux l [] = [] := by
  intro l
  induction l with
  | nil => intro _; rfl
  | cons c cs ih =>
    intro h
    rw [tokAux, if_neg (by simp [h c (List.mem_cons_self c cs)]), if_pos rfl]
    exact ih fun d hd => h d (List.mem_cons_of_mem c hd)

/-- C8: the tokenizer returns exactly the result of lowercasing the string
and splitting at every character outside `[a-z0-9]` with empty pieces
discarded (duplicates retained, source order); empty and all-separator
strings yield the empty sequence. -/
theorem C8_tokenizer (s : String) :
    tokenize s = tokenizeSpec s ∧
    tokenize "" = [] ∧
    ((∀ c ∈ s.data, isWordChar (lowerChar c) = false) → tokenize s = []) := by
  refine ⟨tokenize_eq_tokenizeSpec s, by decide, ?_⟩
  intro h
  rw [tokenize]
  refine tokAux_all_sep _ ?_
  intro c hc
  obtain ⟨d, hd, hdc⟩ := List.mem_map.mp hc
  exact hdc ▸ h d hd

theorem C8_tokenizer_witness :
    (∀ c ∈ ("!!! ??".data), isWordChar (lowerChar c) = false) ∧ tokenize "!!! ??" = [] :=
  ⟨by decide, (C8_tokenizer "!!! ??").2.2 (by decide)⟩

/-! ## Note generator -/

/-- C5: the note generator returns one note per shortlist entry — position
`i` gets line `i` of the cleaned generator output (lines split on newline,
leading `<digits>)` numbering stripped, trimmed, blanks discarded) when it
exists and `""` otherwise — and an empty shortlist yields `[]` for *every*
generator, i.e. without consulting it. -/
theorem C5_note_generator (msg : String) (rs : List Resource) (gen : String → String) :
    (buildResourceNotes msg rs gen).length = rs.length ∧
    (∀ i, i < rs.length →
      (buildResourceNotes msg rs gen).getD i "" =
        (cleanNoteLines (gen (notesUserPrompt msg rs))).getD i "") ∧
    (∀ g : String → String, buildResourceNotes msg [] g = []) := by
  refine ⟨?_, ?_, fun g => rfl⟩
  · rw [buildResourceNotes]
    by_cases h : rs.length = 0
    · rw [if_pos h, h]; rfl
    · rw [if_neg h]
      simp
  · intro i hi
    rw [buildResourceNotes]
    have h : ¬ rs.length = 0 := by omega
    rw [if_neg h]
    rw [List.getD_eq_getElem?_getD, List.getElem?_map,
      List.getElem?_range hi]
    rfl

theorem C5_note_generator_witness :
    2 < ([Resource.mk "A" "a" [] none none, Resource.mk "B" "b" [] none none,
        Resource.mk "C" "c" [] none none] : List Resource).length ∧
      (buildResourceNotes "q"
          [Resource.mk "A" "a" [] none none, Resource.mk "B" "b" [] none none,
            Resource.mk "C" "c" [] none none]
          (fun _ => "1) first\n2) second")).getD 2 "" = "" :=
  ⟨by decide,
    ((C5_note_generator "q"
        [Resource.mk "A" "a" [] none none, Resource.mk "B" "b" [] none none,
          Resource.mk "C" "c" [] none none]
        (fun _ => "1) first\n2) second")).2.1 2 (by decide)).trans (by decide)⟩

/-! ## Ranker: the stable descending sort equals the index-lexicographic sort -/

theorem mem_insertLex (x z : Nat × Resource × Nat) :
    ∀ l, z ∈ insertLex x l → z = x ∨ z ∈ l := by
  intro l
  induction l with
  | nil =>
    intro h
    rw [insertLex] at h
    simp at h
    exact Or.inl h
  | cons y ys ih =>
    intro h
    rw [insertLex] at h
    split at h
    · rcases List.mem_cons.mp h with h' | h'
      · exact Or.inl h'
      · exact Or.inr h'
    · rcases List.mem_cons.mp h with h' | h'
      · exact Or.inr (h' ▸ List.mem_cons_self y ys)
      · rcases ih h' with h'' | h''
        · exact Or.inl h''
        · exact Or.inr (List.mem_cons_of_mem y h'')

theorem mem_sortLex (z : Nat × Resource × Nat) :
    ∀ l, z ∈ sortLex l → z ∈ l := by
  intro l
  induction l with
  | nil => intro h; rw [sortLex] at h; exact h
  | cons y ys ih =>
    intro h
    rw [sortLex] at h
    rcases mem_insertLex y z (sortLex ys) h with h' | h'
    · exact h' ▸ List.mem_cons_self y ys
    · exact List.mem_cons_of_mem y (ih h')

theorem insertLex_map_snd (y : Nat × Resource × Nat) :
    ∀ zs : List (Nat × Resource × Nat), (∀ z ∈ zs, y.1 < z.1) →
      insertDesc y.2 (zs.map (fun q => q.2)) = (insertLex y zs).map (fun q => q.2) := by
  intro zs
  induction zs with
  | nil => intro _; rfl
  | cons z zs' ih =>
    intro hy
    have hz := hy z (List.mem_cons_self z zs')
    simp only [List.map_cons]
    rw [insertDesc, insertLex]
    by_cases hc : z.2.2 ≤ y.2.2
    · rw [if_pos hc, if_pos (by omega)]
      simp
    · rw [if_neg hc, if_neg (by omega)]
      simp only [List.map_cons]
      rw [ih (fun w hw => hy w (List.mem_cons_of_mem z hw))]

theorem sortLex_map_snd :
    ∀ ys : List (Nat × Resource × Nat), List.Pairwise (fun a b => a.1 < b.1) ys →
      sortDesc (ys.map (fun q => q.2)) = (sortLex ys).map (fun q => q.2) := by
  intro ys
  induction ys with
  | nil => intro _; rfl
  | cons y ys' ih =>
    intro hp
    obtain ⟨hy, hp'⟩ := List.pairwise_cons.mp hp
    simp only [List.map_cons]
    rw [sortDesc, sortLex, ih hp',
      insertLex_map_snd y (sortLex ys') (fun z hz => hy z (mem_sortLex z ys' hz))]

theorem filter_map_snd (l : List (Nat × Resource × Nat)) :
    (l.filter (fun q => decide (0 < q.2.2))).map (fun q => q.2) =
      (l.map (fun q => q.2)).filter (fun p => decide (0 < p.2)) := by
  induction l with
  | nil => rfl
  | cons x xs ih =>
    simp only [List.map_cons, List.filter]
    by_cases h : 0 < x.2.2
    · simp only [decide_eq_true h, ih, List.map_cons]
    · simp only [decide_eq_false h, ih]

theorem enum_map_compose {α β : Type} (l : List α) (f : α → β) :
    l.enum.map (fun p => f p.2) = l.map f := by
  conv_rhs => rw [← List.enum_map_snd l]
  rw [List.map_map]
  rfl

theorem pairwise_fst_lt_enumFrom (l : List Resource) :
    ∀ n, List.Pairwise (fun a b : Nat × Resource => a.1 < b.1) (List.enumFrom n l) := by
  induction l with
  | nil => intro n; simp
  | cons x xs ih =>
    intro n
    rw [List.enumFrom]
    refine List.pairwise_cons.mpr ⟨?_, ih (n + 1)⟩
    intro p hp
    have := List.le_fst_of_mem_enumFrom hp
    omega

/-- C2: the ranker scores every resource, discards scores ≤ 0, sorts by
score descending with ties resolved by input-list order, and truncates to
the first five — i.e. it coincides with the index-lexicographic
specification `rankSpec`. -/
theorem C2_ranker (q : String) (l : List Resource) :
    scoreResources q l = rankSpec q l := by
  rw [scoreResources, rankSpec]
  by_cases h : (tokenize q).length = 0
  · rw [if_pos h, if_pos h]
  · rw [if_neg h, if_neg h]
    dsimp only
    have hmap : l.map (fun r => (r, scoreResource q r)) =
        (l.enum.map (fun p => (p.1, p.2, scoreResource q p.2))).map (fun q' => q'.2) := by
      rw [List.map_map, ← enum_map_compose l (fun r => (r, scoreResource q r))]
      rfl
    have hpw : List.Pairwise (fun a b : Nat × Resource × Nat => a.1 < b.1)
        ((l.enum.map (fun p => (p.1, p.2, scoreResource q p.2))).filter
          (fun q' => decide (0 < q'.2.2))) := by
      refine List.Pairwise.sublist (List.filter_sublist _) ?_
      refine (List.pairwise_map).mpr ?_
      exact (pairwise_fst_lt_enumFrom l 0).imp (fun hab => hab)
    rw [hmap, ← filter_map_snd, sortLex_map_snd _ hpw, List.map_map]
    rfl

/-! ## Scoring monotonicity (claim C3) -/

theorem lowerChar_word_fix (c : Char) (h : isWordChar c = true) : lowerChar c = c := by
  rw [isWordChar] at h
  simp only [Bool.or_eq_true, Bool.and_eq_true, decide_eq_true_eq] at h
  rw [lowerChar, if_neg (by omega)]

theorem lowerData_word_fix (l : List Char) (h : ∀ c ∈ l, isWordChar c = true) :
    lowerData l = l := by
  rw [lowerData]
  exact (List.map_congr_left fun c hc => lowerChar_word_fix c (h c hc)).trans (List.map_id l)

theorem tokAux_sep_split (c : Char) (hc : isWordChar c = false) :
    ∀ (X Y acc : List Char), tokAux (X ++ c :: Y) acc = tokAux X acc ++ tokAux Y [] := by
  have hcn : ¬ (isWordChar c = true) := by rw [hc]; exact Bool.false_ne_true
  intro X
  induction X with
  | nil =>
    intro Y acc
    rw [List.nil_append, tokAux.eq_2, if_neg hcn, tokAux.eq_1]
    by_cases h : acc = []
    · rw [if_pos h, if_pos h, List.nil_append]
    · rw [if_neg h, if_neg h]
      simp
  | cons d X' ih =>
    intro Y acc
    rw [List.cons_append, tokAux.eq_2, tokAux.eq_2]
    by_cases hd : isWordChar d
    · rw [if_pos hd, if_pos hd, ih]
    · rw [if_neg hd, if_neg hd]
      by_cases h : acc = []
      · rw [if_pos h, if_pos h, ih]
      · rw [if_neg h, if_neg h, ih, List.cons_append]

theorem tokAux_all_word :
    ∀ l : List Char, l ≠ [] → (∀ c ∈ l, isWordChar c = true) →
      ∀ acc, tokAux l acc = [String.mk (acc.reverse ++ l)] := by
  intro l
  induction l with
  | nil => intro h; exact absurd rfl h
  | cons c cs ih =>
    intro _ hw acc
    rw [tokAux, if_pos (hw c (List.mem_cons_self c cs))]
    rcases cs with _ | ⟨d, ds⟩
    · rw [tokAux, if_neg (by simp), List.reverse_cons]
    · rw [ih (by simp) (fun e he => hw e (List.mem_cons_of_mem c he)) (c :: acc),
        List.reverse_cons, List.append_assoc, List.singleton_append]

theorem mem_append_cons {α : Type} (a b : α) (U V : List α) (h : a ∈ U ++ V) :
    a ∈ U ++ b :: V := by
  rcases List.mem_append.mp h with h' | h'
  · exact List.mem_append_left _ h'
  · exact List.mem_append_right _ (List.mem_cons_of_mem b h')

theorem tokenize_insert (r : Resource) (t : String) (ht : t.data ≠ [])
    (hw : ∀ c ∈ t.data, isWordChar c = true) :
    ∃ U V, tokenize (corpus r) = U ++ V ∧
      tokenize (corpus { r with description := r.description ++ " " ++ t }) = U ++ t :: V := by
  have hspdata : (" " : String).data = [' '] := rfl
  have hspc : lowerChar ' ' = ' ' := rfl
  have hsep : isWordChar ' ' = false := rfl
  have hA : (corpus r).data =
      r.title.data ++ ' ' :: (r.description.data ++ ' ' ::
        ((joinWith " " r.tags).data ++ ' ' ::
          ((joinWith " " (deriveLetterTags r.title)).data ++ ' ' ::
            (r.extractedText.getD "").data))) := by
    simp [corpus, strData_append, hspdata, List.append_assoc]
  have hB : (corpus { r with description := r.description ++ " " ++ t }).data =
      r.title.data ++ ' ' :: ((r.description.data ++ ' ' :: t.data) ++ ' ' ::
        ((joinWith " " r.tags).data ++ ' ' ::
          ((joinWith " " (deriveLetterTags r.title)).data ++ ' ' ::
            (r.extractedText.getD "").data))) := by
    simp [corpus, strData_append, hspdata, List.append_assoc]
  refine ⟨tokAux (lowerData r.title.data) [] ++ tokAux (lowerData r.description.data) [],
    tokAux (lowerData ((joinWith " " r.tags).data ++ ' ' ::
      ((joinWith " " (deriveLetterTags r.title)).data ++ ' ' ::
        (r.extractedText.getD "").data))) [], ?_, ?_⟩
  · rw [tokenize, hA]
    simp only [lowerData, List.map_append, List.map_cons, hspc]
    rw [tokAux_sep_split ' ' hsep, tokAux_sep_split ' ' hsep, List.append_assoc]
  · rw [tokenize, hB]
    simp only [lowerData, List.map_append, List.map_cons, hspc]
    rw [tokAux_sep_split ' ' hsep, tokAux_sep_split ' ' hsep, tokAux_sep_split ' ' hsep]
    rw [show List.map lowerChar t.data = t.data from lowerData_word_fix t.data hw,
      tokAux_all_word t.data ht hw []]
    simp only [List.reverse_nil, List.nil_append]
    rw [show String.mk t.data = t from rfl]
    simp [List.append_assoc]

/-- C3 counterexample: for the query `"pup scat dog"` and the resource with
title `"a"`, description `"qpup scat"`, tags `["dogma"]` and extracted text
`"pupes"`, the query token `"pup"` is absent from the corpus token set, yet
appending it to the description raises the score only from 6 to 7: inserting
the token in the middle of the corpus destroys the full-phrase bonus (the
corpus previously contained `"pup scat dog"` inside `"qpup scat dogma"`), so
the increase is 1, not ≥ 2. -/
theorem C3_counterexample :
    "pup" ∈ tokenize "pup scat dog" ∧
    "pup" ∉ tokenize (corpus (Resource.mk "a" "qpup scat" ["dogma"] (some "pupes") none)) ∧
    ¬ (scoreResource "pup scat dog"
          (Resource.mk "a" "qpup scat" ["dogma"] (some "pupes") none) + 2 ≤
        scoreResource "pup scat dog"
          (Resource.mk "a" ("qpup scat" ++ " " ++ "pup") ["dogma"] (some "pupes") none)) :=
  ⟨by decide, by decide, by decide⟩

/-- C3 amended: appending a query token that is absent from a resource's
corpus token set to its description strictly increases the score — by at
least 1 (the exact-overlap signal gains at least 2, the stemmed-overlap and
tag signals cannot decrease, but the full-phrase bonus may be lost, so the
guaranteed net gain is 1, not 2). -/
theorem C3_monotonicity_amended (q : String) (r : Resource) (t : String)
    (hq : t ∈ tokenize q) (hr : t ∉ tokenize (corpus r)) :
    scoreResource q r <
      scoreResource q { r with description := r.description ++ " " ++ t } := by
  obtain ⟨ht, hw⟩ := tokenize_token_facts q t hq
  obtain ⟨U, V, hUV, hUV'⟩ := tokenize_insert r t ht hw
  rw [scoreResource_eq_spec, scoreResource_eq_spec]
  unfold scoreSpec
  rw [hUV, hUV']
  have htags : ({ r with description := r.description ++ " " ++ t } : Resource).tags
      = r.tags := rfl
  have hstem : ∀ tok : String,
      (if stem tok ∈ (U ++ V).map stem then (1 : Nat) else 0) ≤
        (if stem tok ∈ (U ++ t :: V).map stem then 1 else 0) := by
    intro tok
    by_cases hm : stem tok ∈ (U ++ V).map stem
    · have hm' : stem tok ∈ (U ++ t :: V).map stem := by
        simp only [List.map_append, List.map_cons] at hm ⊢
        exact mem_append_cons _ _ _ _ hm
      rw [if_pos hm, if_pos hm']
    · rw [if_neg hm]
      exact Nat.zero_le _
  have hmono : ∀ tok : String,
      tokenScoreSpec r (U ++ V) tok ≤
        tokenScoreSpec { r with description := r.description ++ " " ++ t } (U ++ t :: V) tok := by
    intro tok
    unfold tokenScoreSpec
    rw [htags]
    have h1 : (if tok ∈ U ++ V then (2 : Nat) else 0) ≤
        (if tok ∈ U ++ t :: V then 2 else 0) := by
      by_cases hm : tok ∈ U ++ V
      · rw [if_pos hm, if_pos (mem_append_cons tok t U V hm)]
      · rw [if_neg hm]
        exact Nat.zero_le _
    have h2 := hstem tok
    omega
  have ht2 : tokenScoreSpec r (U ++ V) t + 2 ≤
      tokenScoreSpec { r with description := r.description ++ " " ++ t } (U ++ t :: V) t := by
    unfold tokenScoreSpec
    rw [htags]
    have hnot : t ∉ U ++ V := hUV ▸ hr
    rw [if_neg hnot,
      if_pos (show t ∈ U ++ t :: V from
        List.mem_append_right _ (List.mem_cons_self t V))]
    have h2 := hstem t
    omega
  obtain ⟨l₁, l₂, hsplit⟩ := List.mem_iff_append.mp hq
  rw [hsplit]
  simp only [List.map_append, List.map_cons, List.sum_append, List.sum_cons]
  have hs1 := List.sum_le_sum (fun i (_ : i ∈ l₁) => hmono i)
  have hs2 := List.sum_le_sum (fun i (_ : i ∈ l₂) => hmono i)
  have hb1 : (if strContains (lowerStr (corpus r)) (lowerStr q) then (1 : Nat) else 0) ≤ 1 := by
    split <;> omega
  omega

theorem C3_monotonicity_amended_witness :
    "cat" ∈ tokenize "cat" ∧
      "cat" ∉ tokenize (corpus (Resource.mk "x" "y" [] none none)) ∧
      scoreResource "cat" (Resource.mk "x" "y" [] none none) <
        scoreResource "cat"
          (Resource.mk "x" ("y" ++ " " ++ "cat") [] none none) :=
  ⟨by decide, by decide,
    C3_monotonicity_amended "cat" (Resource.mk "x" "y" [] none none) "cat"
      (by decide) (by decide)⟩

end SpeechSearch
